import Mathlib

/-!
# Verification of the damselfly2 core against its specification

Shallow embedding of the damselfly2 memory-trace analyzer:

* `MemoryUpdateType` — the event model (`memory_update.rs`, accessors per the spec:
  an update spans the half-open byte range `[address, address + size)`).
* `DistinctBlockCounter` — the statistics state machine
  (`src-tauri/src/damselfly/update_interval/distinct_block_counter.rs`).
* `UpdateQueueCompressor` — `update_queue_compressor.rs`.
* `MemoryCache` / `MemoryCanvas` — the temporal cache (`memory_cache.rs`); the canvas and
  snapshot-rendering collaborators are absent from the sources and are modelled from the spec.
* `get_operation_log` — the padding-compensated operation log of `main.rs`.

Machine integers are modelled as `Nat` with explicit saturation / wrap where the source
uses `saturating_sub` / `saturating_add` / `saturating_add_signed` on `usize` (64-bit) and
`u128` values.
-/

namespace Damselfly

/-- Size bound of a 64-bit `usize`: `usize::MAX = 2^64 - 1`. -/
def usizeMax : ℕ := 2 ^ 64 - 1

/-- Size bound of a `u128`: `u128::MAX = 2^128 - 1`. -/
def u128Max : ℕ := 2 ^ 128 - 1

/-- Rust `usize::saturating_sub` on `Nat` values: identical to truncated subtraction. -/
def satSub (a b : ℕ) : ℕ := a - b

/-- Rust `usize::saturating_add`, clamping at `usize::MAX`. -/
def satAdd (a b : ℕ) : ℕ := min (a + b) usizeMax

/-- Rust `u128::saturating_add_signed`, clamping the signed sum into `[0, u128::MAX]`. -/
def satAddSigned (a : ℕ) (d : ℤ) : ℕ := (min (max ((a : ℤ) + d) 0) (u128Max : ℤ)).toNat

/-- Event model (`memory_update.rs`, absent from src/).
Modelled from the spec: each event is an Allocation or a Free carrying an absolute
address and absolute size; `get_start` is the address and `get_end` is
`address + size` (the update covers the half-open byte range `[address, address+size)`;
a Free carries the size of its matching Allocation).  Timestamps and callstacks play no
role in the verified components and are omitted. -/
inductive MemoryUpdateType where
  | allocation (address size : ℕ)
  | free (address size : ℕ)
deriving DecidableEq, Repr

namespace MemoryUpdateType

/-- `MemoryUpdate::get_start`: the absolute address. -/
def get_start : MemoryUpdateType → ℕ
  | allocation a _ => a
  | free a _ => a

/-- `MemoryUpdate::get_end`: `address + size`. -/
def get_end : MemoryUpdateType → ℕ
  | allocation a s => a + s
  | free a s => a + s

/-- `MemoryUpdate::get_absolute_address`. -/
def get_absolute_address : MemoryUpdateType → ℕ
  | allocation a _ => a
  | free a _ => a

/-- `MemoryUpdate::get_absolute_size`. -/
def get_absolute_size : MemoryUpdateType → ℕ
  | allocation _ s => s
  | free _ s => s

/-- Whether the update is an Allocation. -/
def isAllocation : MemoryUpdateType → Bool
  | allocation _ _ => true
  | free _ _ => false

end MemoryUpdateType

/-- `BTreeSet<usize>::insert`, on the model of a `BTreeSet` as its ascending list of
distinct elements: sorted insertion that leaves the list unchanged when the element is
already present. -/
def treeInsert (x : ℕ) : List ℕ → List ℕ
  | [] => [x]
  | y :: ys => if x < y then x :: y :: ys else if x = y then y :: ys else y :: treeInsert x ys

/-- `BTreeSet<usize>::remove` on the ascending-list model. -/
def treeErase (x : ℕ) : List ℕ → List ℕ
  | [] => []
  | y :: ys => if x = y then ys else y :: treeErase x ys

/-- State of `DistinctBlockCounter` (`distinct_block_counter.rs`).
`starts_set`/`ends_set` model the `HashSet<usize>` fields as finite sets;
`starts_tree`/`ends_tree` model the `BTreeSet<usize>` mirrors as their ascending
element lists (the iteration order of a `BTreeSet`).  `distinct_blocks` and
`free_space` are `u128` fields. -/
structure DistinctBlockCounter where
  start : ℕ
  stop : ℕ
  left_padding : ℕ
  right_padding : ℕ
  manually_track_memory_bounds : Bool
  starts_set : Finset ℕ
  ends_set : Finset ℕ
  starts_tree : List ℕ
  ends_tree : List ℕ
  distinct_blocks : ℕ
  free_blocks : List (ℕ × ℕ)
  free_space : ℕ

namespace DistinctBlockCounter

/-- `DistinctBlockCounter::new`.  The constructor's local `memory_updates_map` is dead
(never read), so the `memory_updates` argument has no observable effect and is dropped
here.  Note the source initialises `manually_track_memory_bounds = true` and never sets
it to `false` in either `match` arm, so it is always `true`.  The pool-bound sentinels
`stop` (as a start) and `start` (as an end) are pre-inserted. -/
def new (left_padding right_padding : ℕ) (memory_bounds : Option (ℕ × ℕ)) :
    DistinctBlockCounter :=
  let start := match memory_bounds with
    | none => usizeMax
    | some (bounds_start, _) => bounds_start
  let stop := match memory_bounds with
    | none => 0
    | some (_, bounds_stop) => bounds_stop
  { start := start
    stop := stop
    left_padding := left_padding
    right_padding := right_padding
    manually_track_memory_bounds := true
    starts_set := {stop}
    ends_set := {start}
    starts_tree := [stop]
    ends_tree := [start]
    distinct_blocks := 0
    free_blocks := []
    free_space := 0 }

/-- The two-pointer merge loop of `DistinctBlockCounter::calculate_free_blocks`,
run over the ascending start edges `ss` and end edges `es`:
while `s < e` advance the start pointer; when `s = e` advance the end pointer with no
block; when `s > e` emit the free block `(e, s)` and advance the end pointer.  The
consecutive `s < e` advances against the current end are grouped into one `dropWhile`,
making the loop structurally recursive on the end list; the loop also stops when either
pointer runs out. -/
def mergeFreeBlocks (ss : List ℕ) : List ℕ → List (ℕ × ℕ)
  | [] => []
  | e :: es =>
    match ss.dropWhile (fun s => s < e) with
    | [] => []
    | s :: ss' => if e < s then (e, s) :: mergeFreeBlocks (s :: ss') es
                  else mergeFreeBlocks (s :: ss') es

/-- Sum of the gap sizes accumulated into `free_space` by the merge loop. -/
def sumGaps (blocks : List (ℕ × ℕ)) : ℕ := (blocks.map (fun b => b.2 - b.1)).sum

/-- `DistinctBlockCounter::calculate_free_blocks`: recompute `free_blocks` from the
ordered edge sets.  Note the source never resets `free_space`; it only executes
`free_space += cur_start - cur_end` for each emitted gap, so the new `free_space` is the
old one plus the gap total of the freshly computed list (a `u128` wrapping add). -/
def calculate_free_blocks (c : DistinctBlockCounter) : DistinctBlockCounter :=
  let blocks := mergeFreeBlocks c.starts_tree c.ends_tree
  { c with
    free_blocks := blocks
    free_space := (c.free_space + sumGaps blocks) % 2 ^ 128 }

/-- Rust `Iterator::max_by` over the free-block list, comparing blocks by size:
`none` on an empty list, otherwise the last block of maximal size. -/
def maxBySize (blocks : List (ℕ × ℕ)) : Option (ℕ × ℕ) :=
  blocks.foldl
    (fun acc b =>
      match acc with
      | none => some b
      | some m => if m.2 - m.1 ≤ b.2 - b.1 then some b else some m)
    none

/-- `DistinctBlockCounter::get_free_segment_fragmentation`:
`(free_space / largest_free_block_size).saturating_sub(1)` when a largest free block
exists, `0` when `free_blocks` is empty. -/
def get_free_segment_fragmentation (c : DistinctBlockCounter) : ℕ :=
  match maxBySize c.free_blocks with
  | some largest => c.free_space / (largest.2 - largest.1) - 1
  | none => 0

/-- `DistinctBlockCounter::get_largest_free_block`: fold keeping the first block of
maximal size (strict improvement required), starting from `(0, 0, 0)`. -/
def get_largest_free_block (c : DistinctBlockCounter) : ℕ × ℕ × ℕ :=
  c.free_blocks.foldl
    (fun largest block =>
      if block.2 - block.1 > largest.2.1 - largest.1 then (block.1, block.2, block.2 - block.1)
      else largest)
    (0, 0, 0)

/-- `DistinctBlockCounter::calculate_new_memory_bounds`. -/
def calculate_new_memory_bounds (c : DistinctBlockCounter) (update : MemoryUpdateType) :
    DistinctBlockCounter :=
  let new_start := update.get_absolute_address
  let new_stop := new_start + update.get_absolute_size
  { c with start := min c.start new_start, stop := max c.stop new_stop }

/-- The `block_delta` computed by `DistinctBlockCounter::push_update` from the
attachment flags (evaluated before the edge sets change). -/
def blockDelta (c : DistinctBlockCounter) (update : MemoryUpdateType) : ℤ :=
  let start := satSub update.get_start c.left_padding
  let eend := satAdd update.get_end c.right_padding
  let left_attached := start ∈ c.ends_set
  let right_attached := eend ∈ c.starts_set
  match update with
  | MemoryUpdateType.allocation _ _ =>
    if left_attached ∧ right_attached then -1
    else if ¬left_attached ∧ ¬right_attached then 1
    else 0
  | MemoryUpdateType.free _ _ =>
    if left_attached ∧ right_attached then 1
    else if ¬left_attached ∧ ¬right_attached then -1
    else 0

/-- `DistinctBlockCounter::push_update`.  The attachment flags are read from the hash
sets before any edge is inserted or removed; an Allocation inserts the padded edges into
the start/end sets and trees, a Free removes them; then the memory bounds are retraced
(`manually_track_memory_bounds` is always `true`), the free blocks are recomputed, the
(pure, discarded) fragmentation getter is called, and finally `distinct_blocks` is
updated by `saturating_add_signed(block_delta)`. -/
def push_update (c : DistinctBlockCounter) (update : MemoryUpdateType) :
    DistinctBlockCounter :=
  let start := satSub update.get_start c.left_padding
  let eend := satAdd update.get_end c.right_padding
  let delta := c.blockDelta update
  let c1 :=
    match update with
    | MemoryUpdateType.allocation _ _ =>
      { c with
        starts_set := insert start c.starts_set
        ends_set := insert eend c.ends_set
        starts_tree := treeInsert start c.starts_tree
        ends_tree := treeInsert eend c.ends_tree }
    | MemoryUpdateType.free _ _ =>
      { c with
        starts_set := c.starts_set.erase start
        ends_set := c.ends_set.erase eend
        starts_tree := treeErase start c.starts_tree
        ends_tree := treeErase eend c.ends_tree }
  let c2 := if c1.manually_track_memory_bounds then c1.calculate_new_memory_bounds update else c1
  let c3 := c2.calculate_free_blocks
  { c3 with distinct_blocks := satAddSigned c3.distinct_blocks delta }

/-- Push a list of updates in order. -/
def push_all (c : DistinctBlockCounter) (updates : List MemoryUpdateType) :
    DistinctBlockCounter :=
  updates.foldl push_update c

/-- The coalescing table of `push_update` as the spec states it, amended for the
`u128` saturation of `distinct_blocks`: with `lo`/`hi` the padded edges and the
attachment flags read before the edge sets change, an Allocation moves
`distinct_blocks` by `-1` (saturating at `0`), `+1` (saturating at `u128::MAX`) or `0`
according to the four-branch table, a Free mirrors it; an Allocation then inserts
`lo`/`hi` into the start/end sets and trees, a Free removes them. -/
def coalescingTableSpec (c : DistinctBlockCounter) (u : MemoryUpdateType) : Prop :=
  let lo := satSub u.get_start c.left_padding
  let hi := satAdd u.get_end c.right_padding
  let la := lo ∈ c.ends_set
  let ra := hi ∈ c.starts_set
  let c' := c.push_update u
  (c'.distinct_blocks =
    match u with
    | MemoryUpdateType.allocation _ _ =>
      if la ∧ ra then c.distinct_blocks - 1
      else if ¬la ∧ ¬ra then min (c.distinct_blocks + 1) u128Max
      else c.distinct_blocks
    | MemoryUpdateType.free _ _ =>
      if la ∧ ra then min (c.distinct_blocks + 1) u128Max
      else if ¬la ∧ ¬ra then c.distinct_blocks - 1
      else c.distinct_blocks)
  ∧ (u.isAllocation = true →
      c'.starts_set = insert lo c.starts_set ∧ c'.ends_set = insert hi c.ends_set ∧
      c'.starts_tree = treeInsert lo c.starts_tree ∧ c'.ends_tree = treeInsert hi c.ends_tree)
  ∧ (u.isAllocation = false →
      c'.starts_set = c.starts_set.erase lo ∧ c'.ends_set = c.ends_set.erase hi ∧
      c'.starts_tree = treeErase lo c.starts_tree ∧ c'.ends_tree = treeErase hi c.ends_tree)

/-- Safety property of `push_update`: `distinct_blocks` follows the clamped
(saturating, never wrapping) signed addition, the padded edges are computed with
saturating subtraction and addition, and an Allocation's saturated edges land in the
edge sets. -/
def saturationSpec (c : DistinctBlockCounter) (u : MemoryUpdateType) : Prop :=
  let lo := satSub u.get_start c.left_padding
  let hi := satAdd u.get_end c.right_padding
  ((c.push_update u).distinct_blocks : ℤ) =
      max 0 (min ((c.distinct_blocks : ℤ) + c.blockDelta u) (u128Max : ℤ))
  ∧ (c.distinct_blocks = 0 → c.blockDelta u ≤ 0 → (c.push_update u).distinct_blocks = 0)
  ∧ (lo : ℤ) = max ((u.get_start : ℤ) - c.left_padding) 0
  ∧ (hi : ℤ) = min ((u.get_end : ℤ) + c.right_padding) (usizeMax : ℤ)
  ∧ (u.isAllocation = true →
      lo ∈ (c.push_update u).starts_set ∧ hi ∈ (c.push_update u).ends_set)

/-- The edge sets of a well-formed counter state interleave: between any two end
edges lies a start edge.  This holds when the edges are those of a family of disjoint
live allocations together with the pool sentinels (and can fail after a free whose
padded edges do not match a live allocation, which the spec tolerates without
guarantees). -/
def edgesInterleaved (ss es : List ℕ) : Prop :=
  ∀ e ∈ es, ∀ e2 ∈ es, e < e2 → ∃ s ∈ ss, e < s ∧ s ≤ e2

/-- The free-block list properties of C4, amended.  Unconditionally, after every
push: the stored list is the two-pointer merge of the ordered edge trees; every
emitted block is non-empty; and blocks lie inside any bounds enclosing all edges (in
particular inside `[pool_start, pool_stop]` when the sentinels and all allocations are
in-pool).  Conditionally — only when the post-push edge trees are ascending and
interleaved, which a free whose padded edges match no live allocation can break — the
list is strictly ordered and pairwise disjoint. -/
def freeBlockListSpec (c : DistinctBlockCounter) (u : MemoryUpdateType) : Prop :=
  let c' := c.push_update u
  c'.free_blocks = mergeFreeBlocks c'.starts_tree c'.ends_tree
  ∧ (∀ b ∈ c'.free_blocks, b.1 < b.2)
  ∧ (∀ lo hi, (∀ x ∈ c'.starts_tree, lo ≤ x ∧ x ≤ hi) →
      (∀ x ∈ c'.ends_tree, lo ≤ x ∧ x ≤ hi) →
      ∀ b ∈ c'.free_blocks, lo ≤ b.1 ∧ b.2 ≤ hi)
  ∧ (List.Sorted (· < ·) c'.starts_tree → List.Sorted (· < ·) c'.ends_tree →
      edgesInterleaved c'.starts_tree c'.ends_tree →
      List.Pairwise (fun b1 b2 => b1.2 ≤ b2.1 ∧ b1.1 < b2.1) c'.free_blocks)

end DistinctBlockCounter

namespace UpdateQueueCompressor

/-- The scan of `compressed_updates.iter().position(..)` in
`UpdateQueueCompressor::compress_to_allocs` (`update_queue_compressor.rs`): left to
right, an Allocation is compared by address, and hitting a stored Free panics.
`none` models the panic, `some none` "no match", `some (some i)` "first match at i". -/
def findAllocPos (addr : ℕ) : List MemoryUpdateType → Option (Option ℕ)
  | [] => some none
  | MemoryUpdateType.allocation a _ :: rest =>
    if a = addr then some (some 0)
    else
      match findAllocPos addr rest with
      | some (some i) => some (some (i + 1))
      | some none => some none
      | none => none
  | MemoryUpdateType.free _ _ :: _ => none

/-- One iteration of the `compress_to_allocs` loop: an Allocation is pushed onto the
compressed list; a Free removes the first Allocation with the same address
(`Vec::remove` at the found position), is skipped when the `position` search finds
nothing (the `.or(None)` branch), and panics (`none`) if the search examines a Free
stored in the compressed list. -/
def compressStep (acc : List MemoryUpdateType) :
    MemoryUpdateType → Option (List MemoryUpdateType)
  | MemoryUpdateType.allocation a s => some (acc ++ [MemoryUpdateType.allocation a s])
  | MemoryUpdateType.free a _ =>
    match findAllocPos a acc with
    | none => none
    | some none => some acc
    | some (some i) => some (acc.eraseIdx i)

/-- `UpdateQueueCompressor::compress_to_allocs`; `none` models a panic. -/
def compress_to_allocs (updates : List MemoryUpdateType) :
    Option (List MemoryUpdateType) :=
  updates.foldl (fun st u => st.bind (fun acc => compressStep acc u)) (some [])

end UpdateQueueCompressor

/-- One canvas cell.  Modelled from the spec (the canvas sources are absent from src/):
the cell covers the byte range `[lo, hi)`; `active` holds, in painting order, an
arena-style handle `(address, size)` for each live allocation overlapping the cell;
`lastRef` is the most recent allocation that covered the cell, kept as the provenance
reference of a `Free` cell for colour continuity. -/
structure CanvasCell where
  lo : ℕ
  hi : ℕ
  active : List (ℕ × ℕ)
  lastRef : Option (ℕ × ℕ)
deriving DecidableEq, Repr

/-- The byte overlap of an allocation `[a, a+s)` with a cell `[lo, hi)`. -/
def overlapBytes (lo hi a s : ℕ) : ℕ := min hi (a + s) - max lo a

/-- Paint one event onto one cell.  Modelled from the spec: an Allocation overlapping
the cell adds its coverage (its handle is appended); a Free subtracts the coverage of
the allocations with its address — since a Free carries the size of its matching
Allocation, removing the handles with the freed address subtracts exactly the coverage
the spec describes — and when the cell's coverage reaches zero it is downgraded to a
free cell remembering the last removed allocation. -/
def cellApply (c : CanvasCell) : MemoryUpdateType → CanvasCell
  | MemoryUpdateType.allocation a s =>
    if 0 < overlapBytes c.lo c.hi a s then { c with active := c.active ++ [(a, s)] } else c
  | MemoryUpdateType.free a _ =>
    { c with
      active := c.active.filter (fun p => !(p.1 == a))
      lastRef :=
        if (c.active.filter (fun p => !(p.1 == a))).isEmpty &&
            !(c.active.filter (fun p => p.1 == a)).isEmpty then
          (c.active.filter (fun p => p.1 == a)).getLast?
        else c.lastRef }

/-- Canvas cell statuses (`memory_status.rs`, absent from src/), modelled from the
spec's `MemoryStatus` data model. -/
inductive MemoryStatus where
  | allocated (ref : ℕ × ℕ) (bytes : ℕ)
  | partiallyAllocated (refs : List (ℕ × ℕ)) (used : ℕ)
  | free (ref : Option (ℕ × ℕ))
  | unused
deriving DecidableEq, Repr

/-- Used bytes of a cell: the summed coverage of its active allocations. -/
def usedBytes (c : CanvasCell) : ℕ :=
  (c.active.map (fun p => overlapBytes c.lo c.hi p.1 p.2)).sum

/-- Derive the spec's `MemoryStatus` of a cell: no active allocation yields a free
cell with the provenance reference; full coverage collapses to `Allocated` (carrying
the first covering allocation); partial coverage yields `PartiallyAllocated` with the
covering set and used byte count. -/
def cellStatus (blockSize : ℕ) (c : CanvasCell) : MemoryStatus :=
  match c.active with
  | [] => MemoryStatus.free c.lastRef
  | p :: _ =>
    if usedBytes c = blockSize then MemoryStatus.allocated p blockSize
    else MemoryStatus.partiallyAllocated c.active (usedBytes c)

/-- The memory canvas (`memory_canvas.rs`, absent from src/), modelled from the spec:
`ceil((stop-start)/block_size)` cells, cell `i` covering
`[start + i*B, min (start + (i+1)*B) stop)`. -/
structure MemoryCanvas where
  start : ℕ
  stop : ℕ
  block_size : ℕ
  cells : List CanvasCell
deriving DecidableEq, Repr

namespace MemoryCanvas

/-- `MemoryCanvas::new` with no intervals followed by `insert_blocks` (which paints
nothing when the interval list is empty, as in `generate_cache`): every cell starts
free with no provenance. -/
def new (start stop block_size : ℕ) : MemoryCanvas :=
  { start := start
    stop := stop
    block_size := block_size
    cells := (List.range ((stop - start + block_size - 1) / block_size)).map
      (fun i => ⟨start + i * block_size, min (start + (i + 1) * block_size) stop, [], none⟩) }

/-- Render the canvas as its per-cell status vector. -/
def render (cv : MemoryCanvas) : List MemoryStatus :=
  cv.cells.map (cellStatus cv.block_size)

end MemoryCanvas

/-- Apply one event to every cell of the canvas. -/
def canvasApply (cv : MemoryCanvas) (u : MemoryUpdateType) : MemoryCanvas :=
  { cv with cells := cv.cells.map (fun c => cellApply c u) }

/-- `MemoryCanvas::paint_temporary_updates`, modelled from the spec: apply a sequence
of events in order. -/
def paint_temporary_updates (cv : MemoryCanvas) (us : List MemoryUpdateType) :
    MemoryCanvas :=
  us.foldl canvasApply cv

/-- `Utility::get_canvas_span` (absent from src/).  Modelled from the spec: the byte
span enclosing all updates (the pool bounds of the per-pool event list). -/
def getCanvasSpan (us : List MemoryUpdateType) : ℕ × ℕ :=
  (us.foldl (fun acc u => min acc u.get_start) usizeMax,
    us.foldl (fun acc u => max acc u.get_end) 0)

/-- `MemoryCacheSnapshot` (`memory_cache_snapshot.rs`, absent from src/): a snapshot
canvas plus the pending events of its bucket. -/
structure MemoryCacheSnapshot where
  canvas : MemoryCanvas
  pending : List MemoryUpdateType
deriving DecidableEq, Repr

/-- `MemoryCacheSnapshot::render_this_many` (absent from src/).  Modelled from the
spec: paint the first `count` pending events onto a copy of the snapshot canvas and
return the cell statuses. -/
def render_this_many (s : MemoryCacheSnapshot) (count : ℕ) : List MemoryStatus :=
  (paint_temporary_updates s.canvas (s.pending.take count)).render

/-- The bucket of `generate_cache`: the events whose index has quotient `k` by the
cache interval, in original order (`memory_cache.rs` buckets by `index / interval`
into a map, preserving order within each bucket). -/
def bucketOf (us : List MemoryUpdateType) (I k : ℕ) : List MemoryUpdateType :=
  ((List.enumFrom 0 us).filter (fun p => p.1 / I = k)).map Prod.snd

/-- `MemoryCache` (`memory_cache.rs`). -/
structure MemoryCache where
  memory_cache_snapshots : List MemoryCacheSnapshot
  update_intervals : List MemoryUpdateType
  interval : ℕ
deriving DecidableEq, Repr

/-- `MemoryCache::generate_cache`: snapshot the running canvas before folding each
bucket `k = 0 ..= (N-1)/I` into it.  `none` models the construction panic on an empty
event list (`update_intervals.len() - 1` underflows). -/
def generate_cache (us : List MemoryUpdateType) (I B : ℕ) :
    Option (List MemoryCacheSnapshot) :=
  if us.isEmpty then none
  else
    some (((List.range ((us.length - 1) / I + 1)).foldl
      (fun st k =>
        (st.1 ++ [⟨st.2, bucketOf us I k⟩], paint_temporary_updates st.2 (bucketOf us I k)))
      ([], MemoryCanvas.new (getCanvasSpan us).1 (getCanvasSpan us).2 B)).1)

/-- `MemoryCache::new`; `none` models the construction panic on an empty event
list. -/
def MemoryCache.mk? (block_size : ℕ) (us : List MemoryUpdateType) (I : ℕ) :
    Option MemoryCache :=
  (generate_cache us I block_size).map (fun snaps => ⟨snaps, us, I⟩)

/-- `MemoryCache::query_cache`: clamp the cache index to the last snapshot, replay
`timestamp - cache_index * interval` pending events, and return the cell vector; the
error branch fires only when the clamped index misses the snapshot vector. -/
def query_cache (mc : MemoryCache) (timestamp : ℕ) : Except String (List MemoryStatus) :=
  let cache_index := min (timestamp / mc.interval) (mc.memory_cache_snapshots.length - 1)
  match mc.memory_cache_snapshots.get? cache_index with
  | some snap =>
    Except.ok (render_this_many snap (timestamp - cache_index * mc.interval))
  | none => Except.error "[MemoryCache::query_cache]: Cache index out of bounds."

/-- Whether the event at index `j` is a Free with address `a`. -/
def freesAddrAt (us : List MemoryUpdateType) (j a : ℕ) : Bool :=
  match us.get? j with
  | some (MemoryUpdateType.free b _) => b == a
  | _ => false

/-- Spec-side liveness: the allocation pushed at index `i`, provided index `i` holds an
Allocation and no later Free before time `t` carries its address. -/
def liveAllocPair (us : List MemoryUpdateType) (t i : ℕ) : Option (ℕ × ℕ) :=
  match us.get? i with
  | some (MemoryUpdateType.allocation a s) =>
    if (List.range t).any (fun j => decide (i < j) && freesAddrAt us j a) then none
    else some (a, s)
  | _ => none

/-- Spec-side: the allocations live at `t` (allocated before `t`, not freed before
`t`), as allocation events in original order. -/
def liveUpdates (us : List MemoryUpdateType) (t : ℕ) : List MemoryUpdateType :=
  (List.range t).filterMap
    (fun i => (liveAllocPair us t i).map (fun p => MemoryUpdateType.allocation p.1 p.2))

/-- Spec-side: a fresh canvas painted from scratch with exactly the allocations live
at `t`. -/
def freshCanvasAt (us : List MemoryUpdateType) (B t : ℕ) : MemoryCanvas :=
  paint_temporary_updates
    (MemoryCanvas.new (getCanvasSpan us).1 (getCanvasSpan us).2 B) (liveUpdates us t)

/-- Erase the provenance reference of free cells (the colour-continuity hint a replayed
canvas keeps but a from-scratch painting cannot reconstruct). -/
def eraseFreeRef : MemoryStatus → MemoryStatus
  | MemoryStatus.free _ => MemoryStatus.free none
  | st => st

/-- `DamselflyInstance::get_operation_history` (absent from src/).  Modelled from the
spec: the operation history, most recent first (`operation_history(window)` returns
the last `window` events; `main.rs` then takes the first 128 of them). -/
def get_operation_history (events : List MemoryUpdateType) : List MemoryUpdateType :=
  events.reverse

/-- The per-update padding compensation of `get_operation_log` (`main.rs`): plain
`usize` subtraction `size - right_padding` and `address - left_padding`; `none` models
the debug-build underflow panic (a release build would wrap; neither clamps). -/
def trimPadding (lp rp : ℕ) : MemoryUpdateType → Option MemoryUpdateType
  | MemoryUpdateType.allocation a s =>
    if rp ≤ s ∧ lp ≤ a then some (MemoryUpdateType.allocation (a - lp) (s - rp)) else none
  | MemoryUpdateType.free a s =>
    if rp ≤ s ∧ lp ≤ a then some (MemoryUpdateType.free (a - lp) (s - rp)) else none

/-- The padding compensation applied when it cannot underflow. -/
def adjustPadding (lp rp : ℕ) : MemoryUpdateType → MemoryUpdateType
  | MemoryUpdateType.allocation a s => MemoryUpdateType.allocation (a - lp) (s - rp)
  | MemoryUpdateType.free a s => MemoryUpdateType.free (a - lp) (s - rp)

/-- `get_operation_log` (`main.rs`) for a loaded instance: take the first 128 events
of the operation history and reverse the padding compensation on each before display
(the trimmed update stands for its displayed string).  `none` models a panic. -/
def get_operation_log (events : List MemoryUpdateType) (lp rp : ℕ) :
    Option (List MemoryUpdateType) :=
  ((get_operation_history events).take 128).mapM (trimPadding lp rp)

/-! ## Theorems: DistinctBlockCounter -/

namespace DistinctBlockCounter

/-- `saturating_add_signed` clamps the signed sum into `[0, u128::MAX]`. -/
theorem satAddSigned_eq (d : ℕ) (δ : ℤ) :
    ((satAddSigned d δ : ℕ) : ℤ) = max 0 (min ((d : ℤ) + δ) (u128Max : ℤ)) := by
  simp only [satAddSigned]
  omega

/-- `push_update` updates `distinct_blocks` by the saturating signed addition of the
block delta computed from the pre-push attachment flags. -/
theorem push_update_distinct_eq (c : DistinctBlockCounter) (u : MemoryUpdateType) :
    (c.push_update u).distinct_blocks = satAddSigned c.distinct_blocks (c.blockDelta u) := by
  by_cases hb : c.manually_track_memory_bounds <;>
    cases u <;>
      simp [push_update, calculate_free_blocks, calculate_new_memory_bounds, hb]

/-- An Allocation inserts the padded edges into all four edge sets. -/
theorem push_update_alloc_sets (c : DistinctBlockCounter) (a s : ℕ) :
    (c.push_update (MemoryUpdateType.allocation a s)).starts_set =
        insert (satSub a c.left_padding) c.starts_set ∧
      (c.push_update (MemoryUpdateType.allocation a s)).ends_set =
        insert (satAdd (a + s) c.right_padding) c.ends_set ∧
      (c.push_update (MemoryUpdateType.allocation a s)).starts_tree =
        treeInsert (satSub a c.left_padding) c.starts_tree ∧
      (c.push_update (MemoryUpdateType.allocation a s)).ends_tree =
        treeInsert (satAdd (a + s) c.right_padding) c.ends_tree := by
  by_cases hb : c.manually_track_memory_bounds <;>
    simp [push_update, calculate_free_blocks, calculate_new_memory_bounds, hb,
      MemoryUpdateType.get_start, MemoryUpdateType.get_end]

/-- A Free removes the padded edges from all four edge sets. -/
theorem push_update_free_sets (c : DistinctBlockCounter) (a s : ℕ) :
    (c.push_update (MemoryUpdateType.free a s)).starts_set =
        c.starts_set.erase (satSub a c.left_padding) ∧
      (c.push_update (MemoryUpdateType.free a s)).ends_set =
        c.ends_set.erase (satAdd (a + s) c.right_padding) ∧
      (c.push_update (MemoryUpdateType.free a s)).starts_tree =
        treeErase (satSub a c.left_padding) c.starts_tree ∧
      (c.push_update (MemoryUpdateType.free a s)).ends_tree =
        treeErase (satAdd (a + s) c.right_padding) c.ends_tree := by
  by_cases hb : c.manually_track_memory_bounds <;>
    simp [push_update, calculate_free_blocks, calculate_new_memory_bounds, hb,
      MemoryUpdateType.get_start, MemoryUpdateType.get_end]

/-- C1 counterexample: in a fresh counter over pool `[0, 100)` the sentinels make an
allocation filling the whole pool both-attached, yet `distinct_blocks` (a `u128` held
at `0`) does not change by `-1`: `saturating_add_signed` keeps it at `0`. -/
theorem push_update_decrement_counterexample :
    satSub (MemoryUpdateType.allocation 0 100).get_start
        (DistinctBlockCounter.new 0 0 (some (0, 100))).left_padding ∈
      (DistinctBlockCounter.new 0 0 (some (0, 100))).ends_set ∧
    satAdd (MemoryUpdateType.allocation 0 100).get_end
        (DistinctBlockCounter.new 0 0 (some (0, 100))).right_padding ∈
      (DistinctBlockCounter.new 0 0 (some (0, 100))).starts_set ∧
    (((DistinctBlockCounter.new 0 0 (some (0, 100))).push_update
          (MemoryUpdateType.allocation 0 100)).distinct_blocks : ℤ) ≠
      ((DistinctBlockCounter.new 0 0 (some (0, 100))).distinct_blocks : ℤ) - 1 := by
  decide

/-- C1 (amended): for every state whose `u128` counter is representable, `push_update`
follows the four-branch coalescing table with the decrement saturating at `0` and the
increment saturating at `u128::MAX`, then inserts (Allocation) or removes (Free) the
padded edges `lo`/`hi` in the start/end sets. -/
theorem push_update_coalescing_table_saturated (c : DistinctBlockCounter)
    (u : MemoryUpdateType) (h : c.distinct_blocks ≤ u128Max) :
    c.coalescingTableSpec u := by
  refine ⟨?_, ?_, ?_⟩
  · rw [push_update_distinct_eq]
    have hc := satAddSigned_eq c.distinct_blocks (c.blockDelta u)
    cases u with
    | allocation a s =>
      simp only [blockDelta, MemoryUpdateType.get_start, MemoryUpdateType.get_end] at hc ⊢
      split_ifs at hc ⊢ <;> omega
    | free a s =>
      simp only [blockDelta, MemoryUpdateType.get_start, MemoryUpdateType.get_end] at hc ⊢
      split_ifs at hc ⊢ <;> omega
  · cases u with
    | allocation a s =>
      intro _
      exact push_update_alloc_sets c a s
    | free a s => intro hfalse; simp [MemoryUpdateType.isAllocation] at hfalse
  · cases u with
    | allocation a s => intro hfalse; simp [MemoryUpdateType.isAllocation] at hfalse
    | free a s =>
      intro _
      exact push_update_free_sets c a s

/-- Witness for the amended C1 theorem at a concrete state and update. -/
theorem push_update_coalescing_table_saturated_witness :
    (DistinctBlockCounter.new 0 0 (some (0, 100))).coalescingTableSpec
      (MemoryUpdateType.allocation 20 10) :=
  push_update_coalescing_table_saturated _ _ (by decide)

/-- C2: `calculate_free_blocks` never resets `free_space`, so after the pushes
`A(0,10)`, `A(50,10)` on pool `[0, 100)` the stored `free_space` is `170`: the `90`
accumulated by the first push plus the `80` of the current free blocks
`[(10,50), (60,100)]`.  The claimed invariant `free_space = Σ (s_i - e_i)` fails, and so
does `free_space + Σ live_alloc_size = pool_size` (`170 + 20 ≠ 100`). -/
theorem free_space_accumulates_across_pushes :
    ((DistinctBlockCounter.new 0 0 (some (0, 100))).push_all
          [MemoryUpdateType.allocation 0 10, MemoryUpdateType.allocation 50 10]).free_blocks =
        [(10, 50), (60, 100)] ∧
      ((DistinctBlockCounter.new 0 0 (some (0, 100))).push_all
          [MemoryUpdateType.allocation 0 10, MemoryUpdateType.allocation 50 10]).free_space =
        170 ∧
      sumGaps ((DistinctBlockCounter.new 0 0 (some (0, 100))).push_all
          [MemoryUpdateType.allocation 0 10, MemoryUpdateType.allocation 50 10]).free_blocks =
        80 ∧
      ((DistinctBlockCounter.new 0 0 (some (0, 100))).push_all
          [MemoryUpdateType.allocation 0 10, MemoryUpdateType.allocation 50 10]).free_space ≠
        sumGaps ((DistinctBlockCounter.new 0 0 (some (0, 100))).push_all
          [MemoryUpdateType.allocation 0 10, MemoryUpdateType.allocation 50 10]).free_blocks ∧
      ((DistinctBlockCounter.new 0 0 (some (0, 100))).push_all
          [MemoryUpdateType.allocation 0 10, MemoryUpdateType.allocation 50 10]).free_space +
          (10 + 10) ≠ 100 := by
  decide

/-- C5: after `A(0,10)`, `F(0,10)`, `A(0,10)` on pool `[0, 100)` all free space is
the single contiguous free block `[10, 100)`, yet `get_free_segment_fragmentation`
returns `2` instead of the claimed `0`, because the accumulated `free_space` (`280`)
is divided by the largest-block size (`90`).  This contradicts the function's own
documentation ("total free bytes / largest free block - 1", zero for one big block). -/
theorem fragmentation_nonzero_single_free_block :
    ((DistinctBlockCounter.new 0 0 (some (0, 100))).push_all
          [MemoryUpdateType.allocation 0 10, MemoryUpdateType.free 0 10,
            MemoryUpdateType.allocation 0 10]).free_blocks =
        [(10, 100)] ∧
      ((DistinctBlockCounter.new 0 0 (some (0, 100))).push_all
          [MemoryUpdateType.allocation 0 10, MemoryUpdateType.free 0 10,
            MemoryUpdateType.allocation 0 10]).free_space = 280 ∧
      ((DistinctBlockCounter.new 0 0 (some (0, 100))).push_all
          [MemoryUpdateType.allocation 0 10, MemoryUpdateType.free 0 10,
            MemoryUpdateType.allocation 0 10]).get_free_segment_fragmentation = 2 := by
  decide

/-- C10: `push_update` is total (it is a Lean function), the padded edges are
computed by saturating subtraction and addition, and `distinct_blocks` saturates
instead of wrapping — in particular a called-for decrement at `0` leaves it at `0`. -/
theorem push_update_total_saturating (c : DistinctBlockCounter) (u : MemoryUpdateType) :
    c.saturationSpec u := by
  have hd := push_update_distinct_eq c u
  have hc := satAddSigned_eq c.distinct_blocks (c.blockDelta u)
  refine ⟨?_, ?_, ?_, ?_, ?_⟩
  · rw [hd]; exact hc
  · intro h0 hneg
    rw [hd]
    omega
  · simp only [satSub]; omega
  · simp only [satAdd, usizeMax]; omega
  · cases u with
    | allocation a s =>
      intro _
      have hs := push_update_alloc_sets c a s
      constructor
      · rw [hs.1]; exact Finset.mem_insert_self _ _
      · rw [hs.2.1]
        simp only [MemoryUpdateType.get_end]
        exact Finset.mem_insert_self _ _
    | free a s => intro hfalse; simp [MemoryUpdateType.isAllocation] at hfalse

/-- The head of a non-empty `dropWhile` result fails the predicate. -/
theorem dropWhile_head_false {p : ℕ → Bool} :
    ∀ (l : List ℕ) (x : ℕ) (xs : List ℕ), l.dropWhile p = x :: xs → p x = false := by
  intro l
  induction l with
  | nil => intro x xs h; simp [List.dropWhile] at h
  | cons y ys ih =>
    intro x xs h
    by_cases hy : p y
    · simp only [List.dropWhile_cons, hy, if_true] at h
      exact ih x xs h
    · simp only [List.dropWhile_cons, hy, if_false] at h
      cases h
      simpa using hy

/-- Every block the merge emits pairs an end edge with a strictly larger start edge. -/
theorem mergeFreeBlocks_mem :
    ∀ (es ss : List ℕ) (b : ℕ × ℕ), b ∈ mergeFreeBlocks ss es →
      b.1 ∈ es ∧ b.2 ∈ ss ∧ b.1 < b.2 := by
  intro es
  induction es with
  | nil => intro ss b hb; simp [mergeFreeBlocks] at hb
  | cons e es ih =>
    intro ss b hb
    rw [mergeFreeBlocks] at hb
    cases hdw : ss.dropWhile (fun s => decide (s < e)) with
    | nil => rw [hdw] at hb; simp at hb
    | cons s ss2 =>
      rw [hdw] at hb
      have hb2 : b ∈ (if e < s then (e, s) :: mergeFreeBlocks (s :: ss2) es
          else mergeFreeBlocks (s :: ss2) es) := hb
      have hsubl : List.Sublist (s :: ss2) ss := hdw ▸ List.dropWhile_sublist _
      have hsub : ∀ x ∈ s :: ss2, x ∈ ss := fun x hx => hsubl.subset hx
      by_cases hlt : e < s
      · rw [if_pos hlt] at hb2
        rcases List.mem_cons.mp hb2 with hb1 | hb3
        · subst hb1
          exact ⟨List.mem_cons_self _ _, hsub s (List.mem_cons_self _ _), hlt⟩
        · obtain ⟨h1, h2, h3⟩ := ih (s :: ss2) b hb3
          exact ⟨List.mem_cons_of_mem _ h1, hsub _ h2, h3⟩
      · rw [if_neg hlt] at hb2
        obtain ⟨h1, h2, h3⟩ := ih (s :: ss2) b hb2
        exact ⟨List.mem_cons_of_mem _ h1, hsub _ h2, h3⟩

/-- On ascending, interleaved edge lists the merge emits a disjoint, ordered list of
gaps: each block ends no later than the next one starts. -/
theorem mergeFreeBlocks_pairwise :
    ∀ (es ss : List ℕ), List.Sorted (· < ·) ss → List.Sorted (· < ·) es →
      edgesInterleaved ss es →
      List.Pairwise (fun b1 b2 : ℕ × ℕ => b1.2 ≤ b2.1) (mergeFreeBlocks ss es) := by
  intro es
  induction es with
  | nil => intro ss _ _ _; rw [mergeFreeBlocks]; exact List.Pairwise.nil
  | cons e es ih =>
    intro ss hss hes hint
    rw [mergeFreeBlocks]
    cases hdw : ss.dropWhile (fun s => decide (s < e)) with
    | nil => exact List.Pairwise.nil
    | cons s ss2 =>
      show List.Pairwise (fun b1 b2 : ℕ × ℕ => b1.2 ≤ b2.1)
        (if e < s then (e, s) :: mergeFreeBlocks (s :: ss2) es
          else mergeFreeBlocks (s :: ss2) es)
      have hsubl : List.Sublist (s :: ss2) ss := hdw ▸ List.dropWhile_sublist _
      have hsorted2 : List.Sorted (· < ·) (s :: ss2) := hss.sublist hsubl
      have hes_head : ∀ b ∈ es, e < b := (List.sorted_cons.mp hes).1
      have hes_tail : List.Sorted (· < ·) es := (List.sorted_cons.mp hes).2
      have hmem_drop : ∀ x ∈ ss, e ≤ x → x ∈ s :: ss2 := by
        intro x hx hex
        have hsplit := List.takeWhile_append_dropWhile
          (p := fun s => decide (s < e)) (l := ss)
        rw [← hsplit] at hx
        rcases List.mem_append.mp hx with htw | hdw2
        · have := List.mem_takeWhile_imp htw
          simp at this
          omega
        · rwa [hdw] at hdw2
      have hhead_le : ∀ x ∈ s :: ss2, s ≤ x := by
        intro x hx
        rcases List.mem_cons.mp hx with h1 | h2
        · omega
        · exact le_of_lt ((List.sorted_cons.mp hsorted2).1 x h2)
      have hes_ge : ∀ e2 ∈ es, s ≤ e2 := by
        intro e2 he2
        obtain ⟨s0, hs0mem, hs0gt, hs0le⟩ :=
          hint e (List.mem_cons_self _ _) e2 (List.mem_cons_of_mem _ he2) (hes_head e2 he2)
        have hs0in : s0 ∈ s :: ss2 := hmem_drop s0 hs0mem (le_of_lt hs0gt)
        have := hhead_le s0 hs0in
        omega
      have hint2 : edgesInterleaved (s :: ss2) es := by
        intro e1 he1 e2 he2 h12
        obtain ⟨s0, hs0mem, hgt, hle⟩ :=
          hint e1 (List.mem_cons_of_mem _ he1) e2 (List.mem_cons_of_mem _ he2) h12
        have he1gt : e < e1 := hes_head e1 he1
        exact ⟨s0, hmem_drop s0 hs0mem (by omega), hgt, hle⟩
      have hrec := ih (s :: ss2) hsorted2 hes_tail hint2
      by_cases hlt : e < s
      · rw [if_pos hlt]
        refine List.Pairwise.cons ?_ hrec
        intro b hbmem
        exact hes_ge b.1 (mergeFreeBlocks_mem es (s :: ss2) b hbmem).1
      · rw [if_neg hlt]
        exact hrec

/-- After any push the stored free-block list is exactly the merge of the post-push
edge trees. -/
theorem push_update_free_blocks_eq (c : DistinctBlockCounter) (u : MemoryUpdateType) :
    (c.push_update u).free_blocks =
      mergeFreeBlocks (c.push_update u).starts_tree (c.push_update u).ends_tree := by
  by_cases hb : c.manually_track_memory_bounds <;>
    cases u <;>
      simp [push_update, calculate_free_blocks, calculate_new_memory_bounds, hb]

/-- C4 counterexample: pool `[0, 100)`, pushes `A(10,10)`, `A(40,10)`, then a free at
address `40` with size `25` (a free whose extent matches no live allocation, which the
spec tolerates).  The stored free-block list `[(0,10), (20,100), (50,100)]` is not
pairwise disjoint: `(20,100)` and `(50,100)` overlap. -/
theorem free_blocks_overlap_counterexample :
    ((DistinctBlockCounter.new 0 0 (some (0, 100))).push_all
          [MemoryUpdateType.allocation 10 10, MemoryUpdateType.allocation 40 10,
            MemoryUpdateType.free 40 25]).free_blocks =
        [(0, 10), (20, 100), (50, 100)] ∧
      ¬ List.Pairwise (fun b1 b2 : ℕ × ℕ => b1.2 ≤ b2.1)
        ((DistinctBlockCounter.new 0 0 (some (0, 100))).push_all
          [MemoryUpdateType.allocation 10 10, MemoryUpdateType.allocation 40 10,
            MemoryUpdateType.free 40 25]).free_blocks := by
  decide

/-- C4 (amended): after every push — with no side conditions — the stored free-block
list equals the two-pointer merge over the edge trees, every emitted block is
non-empty, and each block lies within any bounds containing all edges; and whenever
the post-push edge trees are additionally ascending and interleaved, the list is
strictly ordered and pairwise disjoint. -/
theorem free_blocks_two_pointer_merge (c : DistinctBlockCounter)
    (u : MemoryUpdateType) : c.freeBlockListSpec u := by
  have heq := push_update_free_blocks_eq c u
  refine ⟨heq, ?_, ?_, ?_⟩
  · intro b hb
    rw [heq] at hb
    exact (mergeFreeBlocks_mem _ _ b hb).2.2
  · intro lo hi hslo helo b hb
    rw [heq] at hb
    obtain ⟨h1, h2, _⟩ := mergeFreeBlocks_mem _ _ b hb
    exact ⟨(helo b.1 h1).1, (hslo b.2 h2).2⟩
  · intro hss hes hint
    have hp := mergeFreeBlocks_pairwise (c.push_update u).ends_tree
      (c.push_update u).starts_tree hss hes hint
    rw [← heq] at hp
    refine hp.imp_of_mem ?_
    intro b1 b2 hb1 hb2 hle
    rw [heq] at hb1
    have := (mergeFreeBlocks_mem _ _ b1 hb1).2.2
    exact ⟨hle, by omega⟩

/-- Witness for the amended C4 theorem at a concrete state and update, also
discharging the interleaving condition of the disjointness conjunct there. -/
theorem free_blocks_two_pointer_merge_witness :
    (DistinctBlockCounter.new 0 0 (some (0, 100))).freeBlockListSpec
        (MemoryUpdateType.allocation 20 10) ∧
      List.Pairwise (fun b1 b2 => b1.2 ≤ b2.1 ∧ b1.1 < b2.1)
        ((DistinctBlockCounter.new 0 0 (some (0, 100))).push_update
          (MemoryUpdateType.allocation 20 10)).free_blocks := by
  have h := free_blocks_two_pointer_merge (DistinctBlockCounter.new 0 0 (some (0, 100)))
    (MemoryUpdateType.allocation 20 10)
  exact ⟨h, h.2.2.2 (by decide) (by decide) (by unfold edgesInterleaved; decide)⟩

end DistinctBlockCounter

/-! ## Theorems: UpdateQueueCompressor -/

namespace UpdateQueueCompressor

/-- On a compressed list holding only Allocations, the position scan never panics. -/
theorem findAllocPos_ne_none :
    ∀ (acc : List MemoryUpdateType) (a : ℕ),
      (∀ u ∈ acc, u.isAllocation = true) → findAllocPos a acc ≠ none := by
  intro acc
  induction acc with
  | nil => intro a _ h; simp [findAllocPos] at h
  | cons u rest ih =>
    intro a hall h
    cases u with
    | allocation b s =>
      rw [findAllocPos] at h
      by_cases hb : b = a
      · rw [if_pos hb] at h; cases h
      · rw [if_neg hb] at h
        have hrest : ∀ v ∈ rest, v.isAllocation = true :=
          fun v hv => hall v (List.mem_cons_of_mem _ hv)
        cases hfp : findAllocPos a rest with
        | none => exact ih a hrest hfp
        | some o => rw [hfp] at h; cases o <;> simp at h
    | free b s =>
      have := hall (MemoryUpdateType.free b s) (List.mem_cons_self _ _)
      simp [MemoryUpdateType.isAllocation] at this

/-- A successful position scan points at an Allocation with the searched address. -/
theorem findAllocPos_spec :
    ∀ (acc : List MemoryUpdateType) (a : ℕ) (i : ℕ),
      findAllocPos a acc = some (some i) →
      ∃ sz, acc.get? i = some (MemoryUpdateType.allocation a sz) := by
  intro acc
  induction acc with
  | nil => intro a i h; simp [findAllocPos] at h
  | cons u rest ih =>
    intro a i h
    cases u with
    | allocation b s =>
      rw [findAllocPos] at h
      by_cases hb : b = a
      · rw [if_pos hb] at h
        cases h
        exact ⟨s, by simp [hb]⟩
      · rw [if_neg hb] at h
        cases hfp : findAllocPos a rest with
        | none => rw [hfp] at h; cases h
        | some o =>
          rw [hfp] at h
          cases o with
          | none => simp at h
          | some j =>
            simp at h
            obtain ⟨sz, hsz⟩ := ih a j hfp
            exact ⟨sz, by rw [← h]; simpa using hsz⟩
    | free b s => rw [findAllocPos] at h; cases h

/-- When no stored Allocation carries the searched address, the scan reports
"no match". -/
theorem findAllocPos_no_match :
    ∀ (acc : List MemoryUpdateType) (a : ℕ),
      (∀ u ∈ acc, u.isAllocation = true) →
      (∀ u ∈ acc, u.get_absolute_address ≠ a) →
      findAllocPos a acc = some none := by
  intro acc
  induction acc with
  | nil => intro a _ _; rw [findAllocPos]
  | cons u rest ih =>
    intro a hall hne
    cases u with
    | allocation b s =>
      rw [findAllocPos]
      have hb : b ≠ a := by
        have := hne (MemoryUpdateType.allocation b s) (List.mem_cons_self _ _)
        simpa [MemoryUpdateType.get_absolute_address] using this
      rw [if_neg hb]
      rw [ih a (fun v hv => hall v (List.mem_cons_of_mem _ hv))
        (fun v hv => hne v (List.mem_cons_of_mem _ hv))]
    | free b s =>
      have := hall (MemoryUpdateType.free b s) (List.mem_cons_self _ _)
      simp [MemoryUpdateType.isAllocation] at this

/-- The compression loop, started from an all-Allocation compressed list, never
panics and keeps the list all-Allocation. -/
theorem compress_foldl_total :
    ∀ (updates : List MemoryUpdateType) (acc : List MemoryUpdateType),
      (∀ u ∈ acc, u.isAllocation = true) →
      ∃ l, updates.foldl (fun st u => st.bind (fun acc2 => compressStep acc2 u))
            (some acc) = some l ∧ ∀ u ∈ l, u.isAllocation = true := by
  intro updates
  induction updates with
  | nil => intro acc hall; exact ⟨acc, rfl, hall⟩
  | cons u rest ih =>
    intro acc hall
    cases u with
    | allocation a s =>
      have hall2 : ∀ v ∈ acc ++ [MemoryUpdateType.allocation a s], v.isAllocation = true := by
        intro v hv
        rcases List.mem_append.mp hv with h1 | h2
        · exact hall v h1
        · simp at h2; subst h2; rfl
      simpa [compressStep] using ih (acc ++ [MemoryUpdateType.allocation a s]) hall2
    | free a s =>
      cases hfp : findAllocPos a acc with
      | none => exact absurd hfp (findAllocPos_ne_none acc a hall)
      | some o =>
        cases o with
        | none => simpa [compressStep, hfp] using ih acc hall
        | some i =>
          have hall3 : ∀ v ∈ acc.eraseIdx i, v.isAllocation = true := by
            intro v hv
            exact hall v ((List.eraseIdx_sublist acc i).subset hv)
          simpa [compressStep, hfp] using ih (acc.eraseIdx i) hall3

/-- C8: `compress_to_allocs` never panics and yields an all-Allocation list; a Free
matching no stored Allocation leaves the compressed list unchanged (silently skipped),
and a matched Free removes exactly one stored Allocation — the first one with the same
address. -/
theorem compress_to_allocs_free_handling :
    (∀ updates, ∃ l, compress_to_allocs updates = some l ∧
        ∀ u ∈ l, u.isAllocation = true) ∧
      (∀ (acc : List MemoryUpdateType) (a s : ℕ),
        (∀ u ∈ acc, u.isAllocation = true) →
        ((∀ u ∈ acc, u.get_absolute_address ≠ a) →
            compressStep acc (MemoryUpdateType.free a s) = some acc) ∧
          (∀ i, findAllocPos a acc = some (some i) →
            compressStep acc (MemoryUpdateType.free a s) = some (acc.eraseIdx i) ∧
            (acc.eraseIdx i).length + 1 = acc.length ∧
            ∃ sz, acc.get? i = some (MemoryUpdateType.allocation a sz))) := by
  constructor
  · intro updates
    exact compress_foldl_total updates [] (by intro u hu; simp at hu)
  · intro acc a s hall
    constructor
    · intro hne
      simp [compressStep, findAllocPos_no_match acc a hall hne]
    · intro i hfp
      obtain ⟨sz, hsz⟩ := findAllocPos_spec acc a i hfp
      have hi : i < acc.length := by
        by_contra hge
        rw [List.get?_eq_none.mpr (by omega)] at hsz
        cases hsz
      refine ⟨by simp [compressStep, hfp], ?_, ⟨sz, hsz⟩⟩
      rw [List.length_eraseIdx_of_lt hi]  -- name to verify
      omega

/-- Witness for the C8 theorem: a Free with no matching Allocation is skipped on a
concrete compressed list, and the whole compression of a concrete trace succeeds. -/
theorem compress_to_allocs_free_handling_witness :
    compressStep [MemoryUpdateType.allocation 1 2] (MemoryUpdateType.free 5 3) =
      some [MemoryUpdateType.allocation 1 2] :=
  ((compress_to_allocs_free_handling.2 [MemoryUpdateType.allocation 1 2] 5 3
      (by decide)).1) (by decide)

end UpdateQueueCompressor

/-! ## Theorems: temporal cache -/

/-- Painting an empty event list is the identity. -/
theorem paint_nil (cv : MemoryCanvas) : paint_temporary_updates cv [] = cv := rfl

/-- Painting a concatenation paints the pieces in order. -/
theorem paint_append (cv : MemoryCanvas) (a b : List MemoryUpdateType) :
    paint_temporary_updates cv (a ++ b) =
      paint_temporary_updates (paint_temporary_updates cv a) b :=
  List.foldl_append _ _ _ _

/-- Painting never changes the canvas geometry. -/
theorem paint_fields (us : List MemoryUpdateType) :
    ∀ cv : MemoryCanvas,
      (paint_temporary_updates cv us).start = cv.start ∧
      (paint_temporary_updates cv us).stop = cv.stop ∧
      (paint_temporary_updates cv us).block_size = cv.block_size := by
  induction us with
  | nil => intro cv; exact ⟨rfl, rfl, rfl⟩
  | cons u us ih =>
    intro cv
    exact ih (canvasApply cv u)

/-- Painting maps each cell through the per-cell fold of the event list. -/
theorem paint_cells (us : List MemoryUpdateType) :
    ∀ cv : MemoryCanvas,
      (paint_temporary_updates cv us).cells =
        cv.cells.map (fun c => us.foldl cellApply c) := by
  induction us with
  | nil => intro cv; simp [paint_temporary_updates]
  | cons u us ih =>
    intro cv
    have h := ih (canvasApply cv u)
    show (List.foldl canvasApply cv (u :: us)).cells = _
    rw [List.foldl_cons]
    rw [paint_temporary_updates] at h
    rw [h]
    simp only [canvasApply, List.map_map]
    rfl

/-- Characterisation of `index / interval = k` as the index bucket `[kI, (k+1)I)`. -/
theorem div_eq_iff_bucket (n I k : ℕ) (hI : 1 ≤ I) :
    n / I = k ↔ k * I ≤ n ∧ n < k * I + I := by
  constructor
  · intro h
    subst h
    exact ⟨Nat.div_mul_le_self n I, Nat.lt_div_mul_add hI⟩
  · intro h
    exact Nat.div_eq_of_lt_le h.1 (by rw [Nat.succ_mul]; omega)

/-- The enumerated-filter form of a bucket, for an arbitrary enumeration offset. -/
theorem enumFrom_filter_div (I k : ℕ) (hI : 1 ≤ I) :
    ∀ (us : List MemoryUpdateType) (n : ℕ),
      ((List.enumFrom n us).filter (fun p => p.1 / I = k)).map Prod.snd =
        (us.drop (k * I - n)).take (k * I + I - max n (k * I)) := by
  intro us
  induction us with
  | nil => intro n; simp
  | cons x us ih =>
    intro n
    rw [List.enumFrom_cons]
    by_cases h1 : n / I = k
    · have hr : k * I ≤ n ∧ n < k * I + I := (div_eq_iff_bucket n I k hI).mp h1
      rw [List.filter_cons_of_pos (by simpa using h1), List.map_cons, ih (n + 1)]
      have hd0' : k * I - (n + 1) = 0 := by omega
      have hmax' : max (n + 1) (k * I) = n + 1 := by omega
      have hd0 : k * I - n = 0 := by omega
      have hmax : max n (k * I) = n := by omega
      rw [hd0', hmax', hd0, hmax]
      simp only [List.drop_zero]
      have hcnt : k * I + I - n = (k * I + I - (n + 1)) + 1 := by omega
      rw [hcnt, List.take_succ_cons]
    · have hr : ¬(k * I ≤ n ∧ n < k * I + I) :=
        fun hc => h1 ((div_eq_iff_bucket n I k hI).mpr hc)
      rw [List.filter_cons_of_neg (by simpa using h1), ih (n + 1)]
      by_cases h2 : n < k * I
      · have e1 : k * I - n = (k * I - (n + 1)) + 1 := by omega
        have e2 : max n (k * I) = k * I := by omega
        have e3 : max (n + 1) (k * I) = k * I := by omega
        rw [e1, e2, e3, List.drop_succ_cons]
      · have e1 : k * I - n = 0 := by omega
        have e1' : k * I - (n + 1) = 0 := by omega
        have e2 : k * I + I - max n (k * I) = 0 := by omega
        have e2' : k * I + I - max (n + 1) (k * I) = 0 := by omega
        rw [e1, e1', e2, e2']
        simp

/-- A bucket is the contiguous slice of `I` events starting at index `k * I`. -/
theorem bucketOf_eq_drop_take (us : List MemoryUpdateType) (I k : ℕ) (hI : 1 ≤ I) :
    bucketOf us I k = (us.drop (k * I)).take I := by
  unfold bucketOf
  rw [enumFrom_filter_div I k hI us 0]
  have e1 : k * I - 0 = k * I := by omega
  have e2 : k * I + I - max 0 (k * I) = I := by omega
  rw [e1, e2]

/-- The events of the first `k` buckets are exactly the first `k * I` events. -/
theorem take_append_bucket (us : List MemoryUpdateType) (I k : ℕ) (hI : 1 ≤ I) :
    us.take (k * I) ++ bucketOf us I k = us.take (k * I + I) := by
  rw [bucketOf_eq_drop_take us I k hI, ← List.take_add]

/-- The snapshot-building fold of `generate_cache`: after `cnt` rounds the snapshot
list pairs each `k < cnt` with the canvas folded from the first `k * I` events and the
bucket `k`, and the running canvas has folded the first `cnt * I` events. -/
theorem generate_fold_spec (us : List MemoryUpdateType) (I : ℕ) (hI : 1 ≤ I)
    (cv0 : MemoryCanvas) :
    ∀ cnt : ℕ,
      (List.range cnt).foldl
          (fun st k =>
            (st.1 ++ [(⟨st.2, bucketOf us I k⟩ : MemoryCacheSnapshot)],
              paint_temporary_updates st.2 (bucketOf us I k)))
          ([], cv0) =
        ((List.range cnt).map
            (fun k =>
              (⟨paint_temporary_updates cv0 (us.take (k * I)),
                bucketOf us I k⟩ : MemoryCacheSnapshot)),
          paint_temporary_updates cv0 (us.take (cnt * I))) := by
  intro cnt
  induction cnt with
  | zero => simp [paint_temporary_updates]
  | succ n ih =>
    rw [List.range_succ, List.foldl_append, ih, List.foldl_cons, List.foldl_nil,
      List.map_append, List.map_cons, List.map_nil]
    rw [← paint_append, take_append_bucket us I n hI]
    have : (n + 1) * I = n * I + I := by rw [Nat.succ_mul]
    rw [this]

/-- `generate_cache` on a non-empty event list yields, for each
`k = 0 ..= (N-1)/I`, the snapshot pairing the canvas folded from the first `k * I`
events with bucket `k`. -/
theorem generate_cache_eq (us : List MemoryUpdateType) (I B : ℕ) (hI : 1 ≤ I)
    (hne : us ≠ []) :
    generate_cache us I B =
      some ((List.range ((us.length - 1) / I + 1)).map
        (fun k =>
          (⟨paint_temporary_updates
              (MemoryCanvas.new (getCanvasSpan us).1 (getCanvasSpan us).2 B)
              (us.take (k * I)),
            bucketOf us I k⟩ : MemoryCacheSnapshot))) := by
  unfold generate_cache
  rw [if_neg (by simpa using hne)]
  rw [generate_fold_spec us I hI]

/-- Splicing a query's offset into its snapshot prefix recovers the first
`min t N` events. -/
theorem take_offset_key (us : List MemoryUpdateType) (I t : ℕ) (hI : 1 ≤ I)
    (hN : 1 ≤ us.length) :
    us.take (min (t / I) ((us.length - 1) / I) * I) ++
        ((us.drop (min (t / I) ((us.length - 1) / I) * I)).take I).take
          (t - min (t / I) ((us.length - 1) / I) * I) =
      us.take (min t us.length) := by
  rw [List.take_take, ← List.take_add]
  by_cases ht : t < us.length
  · have hqt : min (t / I) ((us.length - 1) / I) = t / I :=
      min_eq_left (Nat.div_le_div_right (by omega))
    rw [hqt]
    have hdm := Nat.div_add_mod' t I
    have hlt : t % I < I := Nat.mod_lt _ (by omega)
    have h1 : t / I * I ≤ t := Nat.div_mul_le_self t I
    have h2 : t / I * I + min (t - t / I * I) I = t := by omega
    rw [h2, min_eq_left (by omega)]
  · have hqe : min (t / I) ((us.length - 1) / I) = (us.length - 1) / I :=
      min_eq_right (Nat.div_le_div_right (by omega))
    rw [hqe]
    have hA1 : (us.length - 1) / I * I ≤ us.length - 1 := Nat.div_mul_le_self _ _
    have hA2 : us.length - 1 < (us.length - 1) / I * I + I := Nat.lt_div_mul_add hI
    have hmt : min t us.length = us.length := min_eq_right (by omega)
    rw [hmt, List.take_length]
    rcases le_or_lt I (t - (us.length - 1) / I * I) with hc | hc
    · rw [min_eq_right hc]
      exact List.take_of_length_le (by omega)
    · rw [min_eq_left (le_of_lt hc)]
      exact List.take_of_length_le (by omega)

/-- Normal form of a query: on a cache built from a non-empty event list with a
positive interval, `query_cache t` succeeds and returns the render of the first
`min t N` events folded onto a fresh canvas — the clamped replay. -/
theorem query_cache_normal_form (us : List MemoryUpdateType) (I B t : ℕ)
    (hI : 1 ≤ I) (hne : us ≠ []) (mc : MemoryCache)
    (hmc : MemoryCache.mk? B us I = some mc) :
    query_cache mc t =
      Except.ok
        ((paint_temporary_updates
          (MemoryCanvas.new (getCanvasSpan us).1 (getCanvasSpan us).2 B)
          (us.take (min t us.length))).render) := by
  rw [MemoryCache.mk?, generate_cache_eq us I B hI hne] at hmc
  simp only [Option.map_some', Option.some.injEq] at hmc
  subst hmc
  have hN : 1 ≤ us.length := by
    cases us with
    | nil => exact absurd rfl hne
    | cons x xs => simp
  unfold query_cache
  simp only [List.length_map, List.length_range]
  have hsub : (us.length - 1) / I + 1 - 1 = (us.length - 1) / I :=
    Nat.add_sub_cancel _ _
  rw [hsub]
  have hci : min (t / I) ((us.length - 1) / I) < (us.length - 1) / I + 1 :=
    Nat.lt_succ_of_le (min_le_right _ _)
  rw [List.get?_map, List.get?_range hci]
  simp only [Option.map_some']
  rw [render_this_many]
  rw [bucketOf_eq_drop_take us I _ hI, ← paint_append,
    take_offset_key us I t hI hN]

/-- C7: on a cache built from a non-empty event list, every query — including one past
the final event index — clamps its snapshot index, replays the offset prefix of the
snapshot's pending events, and returns `Ok` with the clamped replay
(the first `min t N` events folded onto a fresh canvas); the
"Cache index out of bounds" error branch is never taken. -/
theorem query_cache_clamps_and_never_errs (us : List MemoryUpdateType) (I B t : ℕ)
    (hI : 1 ≤ I) (hne : us ≠ []) (mc : MemoryCache)
    (hmc : MemoryCache.mk? B us I = some mc) :
    query_cache mc t =
        Except.ok
          ((paint_temporary_updates
            (MemoryCanvas.new (getCanvasSpan us).1 (getCanvasSpan us).2 B)
            (us.take (min t us.length))).render) ∧
      ∀ msg, query_cache mc t ≠ Except.error msg := by
  have h := query_cache_normal_form us I B t hI hne mc hmc
  refine ⟨h, fun msg hmsg => ?_⟩
  rw [h] at hmsg
  cases hmsg

/-- Witness for the C7 theorem: a concrete one-event cache queried far past the end
still answers with the full replay. -/
theorem query_cache_clamps_and_never_errs_witness :
    (MemoryCache.mk? 16 [MemoryUpdateType.allocation 0 16] 1).map
        (fun mc => query_cache mc 5) =
      some (Except.ok
        ((paint_temporary_updates
          (MemoryCanvas.new (getCanvasSpan [MemoryUpdateType.allocation 0 16]).1
            (getCanvasSpan [MemoryUpdateType.allocation 0 16]).2 16)
          ([MemoryUpdateType.allocation 0 16].take
            (min 5 [MemoryUpdateType.allocation 0 16].length))).render)) := by
  cases hmc : MemoryCache.mk? 16 [MemoryUpdateType.allocation 0 16] 1 with
  | none => exact absurd hmc (by decide)
  | some mc =>
    rw [Option.map_some']
    exact congrArg some
      (query_cache_clamps_and_never_errs [MemoryUpdateType.allocation 0 16] 1 16 5
        (by decide) (by decide) mc hmc).1

/-- C6 counterexample: 4 events with interval 4 produce exactly 1 snapshot
(`(N-1)/I + 1 = ⌈N/I⌉`), not the `⌈N/I⌉ + 1` snapshots of the spec schedule
`k = 0, 1, …, ⌈N/I⌉`. -/
theorem generate_cache_snapshot_count_counterexample :
    (generate_cache
          [MemoryUpdateType.allocation 0 16, MemoryUpdateType.allocation 0 16,
            MemoryUpdateType.allocation 0 16, MemoryUpdateType.allocation 0 16] 4 16).map
        List.length = some ((4 + 4 - 1) / 4) ∧
      (generate_cache
          [MemoryUpdateType.allocation 0 16, MemoryUpdateType.allocation 0 16,
            MemoryUpdateType.allocation 0 16, MemoryUpdateType.allocation 0 16] 4 16).map
        List.length ≠ some ((4 + 4 - 1) / 4 + 1) := by
  decide

/-- C6 (amended): the cache holds one snapshot per `k = 0, …, ⌈N/I⌉ - 1` (the code
builds `(N-1)/I + 1 = ⌈N/I⌉` snapshots, one fewer than the spec schedule, whose final
fully-folded snapshot is never emitted): snapshot `k` pairs the canvas folded from
exactly the events with index `< k * I` (so snapshot `0` reflects no events) with the
pending events of index in `[k*I, (k+1)*I)` in original order. -/
theorem generate_cache_snapshots_spec (us : List MemoryUpdateType) (I B : ℕ)
    (hI : 1 ≤ I) (hne : us ≠ []) :
    ∀ snaps, generate_cache us I B = some snaps →
      snaps.length = (us.length - 1) / I + 1 ∧
      ∀ k, k < snaps.length →
        snaps.get? k =
          some
            ⟨paint_temporary_updates
                (MemoryCanvas.new (getCanvasSpan us).1 (getCanvasSpan us).2 B)
                (us.take (k * I)),
              ((List.enumFrom 0 us).filter
                  (fun p => k * I ≤ p.1 ∧ p.1 < (k + 1) * I)).map Prod.snd⟩ := by
  intro snaps hsnaps
  rw [generate_cache_eq us I B hI hne] at hsnaps
  have hs : snaps = (List.range ((us.length - 1) / I + 1)).map _ :=
    (Option.some.injEq _ _ ▸ hsnaps).symm
  subst hs
  constructor
  · rw [List.length_map, List.length_range]
  · intro k hk
    rw [List.length_map, List.length_range] at hk
    rw [List.get?_map, List.get?_range hk, Option.map_some']
    have hb : bucketOf us I k =
        ((List.enumFrom 0 us).filter
          (fun p => k * I ≤ p.1 ∧ p.1 < (k + 1) * I)).map Prod.snd := by
      unfold bucketOf
      congr 1
      apply List.filter_congr
      intro a _
      simp only [decide_eq_decide]
      rw [Nat.succ_mul]
      exact div_eq_iff_bucket a.1 I k hI
    rw [hb]

/-- `cellApply` never changes a cell's byte range. -/
theorem cellApply_bounds (c : CanvasCell) (u : MemoryUpdateType) :
    (cellApply c u).lo = c.lo ∧ (cellApply c u).hi = c.hi := by
  cases u with
  | allocation a s =>
    rw [cellApply]
    by_cases h : 0 < overlapBytes c.lo c.hi a s <;> simp [h]
  | free a s => exact ⟨rfl, rfl⟩

/-- A fold of events never changes a cell's byte range. -/
theorem cellFold_bounds (L : List MemoryUpdateType) :
    ∀ c : CanvasCell, (L.foldl cellApply c).lo = c.lo ∧ (L.foldl cellApply c).hi = c.hi := by
  induction L with
  | nil => intro c; exact ⟨rfl, rfl⟩
  | cons u L ih =>
    intro c
    rw [List.foldl_cons]
    obtain ⟨h1, h2⟩ := ih (cellApply c u)
    obtain ⟨h3, h4⟩ := cellApply_bounds c u
    exact ⟨h1.trans h3, h2.trans h4⟩

/-- Appending an event at time `t` that is an Allocation keeps every earlier liveness
verdict and makes the new allocation live. -/
theorem liveAllocPair_succ_alloc (us : List MemoryUpdateType) (t a s : ℕ)
    (hget : us.get? t = some (MemoryUpdateType.allocation a s)) :
    (∀ i, liveAllocPair us (t + 1) i = liveAllocPair us t i) ∧
      liveAllocPair us (t + 1) t = some (a, s) := by
  have hfrees : freesAddrAt us t = fun _ => false := by
    funext b
    rw [freesAddrAt, hget]
  constructor
  · intro i
    cases hgi : us.get? i with
    | none => simp only [liveAllocPair, hgi]
    | some u =>
      cases u with
      | free b z => simp only [liveAllocPair, hgi]
      | allocation b z =>
        have hany : (List.range (t + 1)).any (fun j => decide (i < j) && freesAddrAt us j b) =
            (List.range t).any (fun j => decide (i < j) && freesAddrAt us j b) := by
          rw [List.range_succ, List.any_append]
          simp [hfrees]
        simp only [liveAllocPair, hgi, hany]
  · have hany : (List.range (t + 1)).any (fun j => decide (t < j) && freesAddrAt us j a) =
        false := by
      rw [List.any_eq_false]
      intro j hj
      rw [List.mem_range] at hj
      simp [decide_eq_false (by omega : ¬t < j)]
    simp only [liveAllocPair, hget, hany]
    rfl

/-- Appending an event at time `t` that is a Free kills exactly the live allocations
with its address among the earlier indices, and index `t` itself is not live. -/
theorem liveAllocPair_succ_free (us : List MemoryUpdateType) (t b z : ℕ)
    (hget : us.get? t = some (MemoryUpdateType.free b z)) :
    (∀ i, i < t →
        liveAllocPair us (t + 1) i =
          (liveAllocPair us t i).filter (fun p => !(p.1 == b))) ∧
      liveAllocPair us (t + 1) t = none := by
  constructor
  · intro i hi
    cases hgi : us.get? i with
    | none => simp only [liveAllocPair, hgi, Option.filter_none]
    | some u =>
      cases u with
      | free c z2 => simp only [liveAllocPair, hgi, Option.filter_none]
      | allocation c z2 =>
        have hone : freesAddrAt us t c = (c == b) := by
          rw [freesAddrAt, hget]
          by_cases h : b = c
          · subst h; simp
          · have h2 : ¬c = b := fun hc => h hc.symm
            simp [h, h2]
        have hany : (List.range (t + 1)).any (fun j => decide (i < j) && freesAddrAt us j c) =
            ((List.range t).any (fun j => decide (i < j) && freesAddrAt us j c) || (c == b)) := by
          rw [List.range_succ, List.any_append]
          simp [hone, decide_eq_true_eq, hi]
        simp only [liveAllocPair, hgi, hany]
        cases hold : (List.range t).any (fun j => decide (i < j) && freesAddrAt us j c) with
        | true => simp
        | false =>
          by_cases hcb : c = b
          · subst hcb
            simp [Option.filter]
          · simp [Option.filter, hcb]
  · simp only [liveAllocPair, hget]

/-- Folding a list of Allocations over a cell appends exactly the overlapping
handles. -/
theorem cellFold_allocs (L : List MemoryUpdateType) :
    ∀ c : CanvasCell, (∀ u ∈ L, u.isAllocation = true) →
      (L.foldl cellApply c).active =
        c.active ++ L.filterMap
          (fun u =>
            match u with
            | MemoryUpdateType.allocation a s =>
              if 0 < overlapBytes c.lo c.hi a s then some (a, s) else none
            | MemoryUpdateType.free _ _ => none) := by
  induction L with
  | nil => intro c _; simp
  | cons u L ih =>
    intro c hall
    cases u with
    | free a s =>
      have := hall _ (List.mem_cons_self _ _)
      simp [MemoryUpdateType.isAllocation] at this
    | allocation a s =>
      rw [List.foldl_cons, List.filterMap_cons]
      have hLall : ∀ v ∈ L, v.isAllocation = true :=
        fun v hv => hall v (List.mem_cons_of_mem _ hv)
      have hbounds := cellApply_bounds c (MemoryUpdateType.allocation a s)
      have hih := ih (cellApply c (MemoryUpdateType.allocation a s)) hLall
      rw [hbounds.1, hbounds.2] at hih
      rw [hih]
      by_cases h : 0 < overlapBytes c.lo c.hi a s
      · simp only [cellApply, if_pos h, List.append_assoc, List.singleton_append]
      · simp only [cellApply, if_neg h]

/-- For every well-bounded time, folding the first `t` events over an initially empty
cell leaves active exactly the live overlapping allocations at `t`, in order. -/
theorem cellFold_take_eq_live (us : List MemoryUpdateType) (lo hi : ℕ) :
    ∀ t, t ≤ us.length →
      ((us.take t).foldl cellApply ⟨lo, hi, [], none⟩).active =
        (List.range t).filterMap
          (fun i => (liveAllocPair us t i).filter
            (fun p => decide (0 < overlapBytes lo hi p.1 p.2))) := by
  intro t
  induction t with
  | zero => intro _; simp
  | succ t ih =>
    intro ht
    have htle : t ≤ us.length := by omega
    cases hget : us.get? t with
    | none =>
      rw [List.get?_eq_none] at hget
      omega
    | some u =>
      have hget2 : us[t]? = some u := by
        rw [← List.get?_eq_getElem?]
        exact hget
      have htake : us.take (t + 1) = us.take t ++ [u] := by
        rw [List.take_succ, hget2]
        rfl
      rw [htake, List.foldl_append, List.foldl_cons, List.foldl_nil]
      rw [List.range_succ, List.filterMap_append]
      have hbase := ih htle
      have hbounds := cellFold_bounds (us.take t) ⟨lo, hi, [], none⟩
      cases u with
      | allocation a s =>
        obtain ⟨hstep, hlast⟩ := liveAllocPair_succ_alloc us t a s hget
        have hpart1 :
            (List.range t).filterMap
              (fun i => (liveAllocPair us (t + 1) i).filter
                (fun p => decide (0 < overlapBytes lo hi p.1 p.2))) =
            (List.range t).filterMap
              (fun i => (liveAllocPair us t i).filter
                (fun p => decide (0 < overlapBytes lo hi p.1 p.2))) :=
          List.filterMap_congr (fun i _ => by rw [hstep i])
        rw [hpart1, ← hbase]
        rw [List.filterMap_cons]
        simp only [List.filterMap_nil, hlast]
        by_cases h : 0 < overlapBytes lo hi a s
        · simp [cellApply, hbounds.1, hbounds.2, h, Option.filter]
        · simp [cellApply, hbounds.1, hbounds.2, h, Option.filter]
      | free b z =>
        obtain ⟨hstep, hlast⟩ := liveAllocPair_succ_free us t b z hget
        have hpart1 :
            (List.range t).filterMap
              (fun i => (liveAllocPair us (t + 1) i).filter
                (fun p => decide (0 < overlapBytes lo hi p.1 p.2))) =
            (List.range t).filterMap
              (fun i => (((liveAllocPair us t i).filter
                  (fun p => decide (0 < overlapBytes lo hi p.1 p.2))).filter
                (fun p => !(p.1 == b)))) := by
          apply List.filterMap_congr
          intro i hit
          rw [List.mem_range] at hit
          rw [hstep i hit]
          cases liveAllocPair us t i with
          | none => rfl
          | some p =>
            simp only [Option.filter]
            by_cases h1 : (p.1 == b) = true <;> by_cases h2 : decide (0 < overlapBytes lo hi p.1 p.2) = true <;>
              simp [h1, h2]
        rw [hpart1, ← List.filter_filterMap, ← hbase]
        rw [List.filterMap_cons]
        simp only [List.filterMap_nil, hlast, Option.filter_none]
        simp only [cellApply, List.append_nil]

/-- Painting the live allocations from scratch over an empty cell leaves active the
same live overlapping allocations. -/
theorem cellFold_live_eq (us : List MemoryUpdateType) (lo hi t : ℕ) :
    ((liveUpdates us t).foldl cellApply ⟨lo, hi, [], none⟩).active =
      (List.range t).filterMap
        (fun i => (liveAllocPair us t i).filter
          (fun p => decide (0 < overlapBytes lo hi p.1 p.2))) := by
  have hall : ∀ u ∈ liveUpdates us t, u.isAllocation = true := by
    intro u hu
    rw [liveUpdates] at hu
    obtain ⟨i, _, heq⟩ := List.mem_filterMap.mp hu
    cases hpair : liveAllocPair us t i with
    | none => rw [hpair] at heq; cases heq
    | some p =>
      rw [hpair, Option.map_some'] at heq
      cases heq
      rfl
  rw [cellFold_allocs _ _ hall, List.nil_append, liveUpdates, List.filterMap_filterMap]
  apply List.filterMap_congr
  intro i _
  cases liveAllocPair us t i with
  | none => rfl
  | some p =>
    simp only [Option.map_some', Option.some_bind, Option.filter]
    by_cases h : 0 < overlapBytes lo hi p.1 p.2
    · simp [h]
    · simp [h]

/-- Two cells with the same byte range and the same active allocations have the same
status once the free-cell provenance reference is erased. -/
theorem cellStatus_erase_eq (B : ℕ) (c1 c2 : CanvasCell) (hlo : c1.lo = c2.lo)
    (hhi : c1.hi = c2.hi) (hact : c1.active = c2.active) :
    eraseFreeRef (cellStatus B c1) = eraseFreeRef (cellStatus B c2) := by
  cases c1 with
  | mk lo1 hi1 act1 ref1 =>
    cases c2 with
    | mk lo2 hi2 act2 ref2 =>
      simp only at hlo hhi hact
      subst hlo hhi hact
      cases act1 with
      | nil => rfl
      | cons p rest => rfl

/-- Replaying the first `t` events and painting the live allocations at `t` from
scratch render the same cell vector once free-cell provenance is erased. -/
theorem render_erase_eq (us : List MemoryUpdateType) (start stop B t : ℕ)
    (ht : t ≤ us.length) :
    ((paint_temporary_updates (MemoryCanvas.new start stop B)
          (us.take t)).render).map eraseFreeRef =
      ((paint_temporary_updates (MemoryCanvas.new start stop B)
        (liveUpdates us t)).render).map eraseFreeRef := by
  rw [MemoryCanvas.render, MemoryCanvas.render]
  rw [(paint_fields (us.take t) _).2.2, (paint_fields (liveUpdates us t) _).2.2]
  rw [paint_cells, paint_cells, List.map_map, List.map_map, List.map_map, List.map_map]
  apply List.map_congr_left
  intro c hc
  have hcell : ∃ i, c = (⟨start + i * B, min (start + (i + 1) * B) stop, [], none⟩ :
      CanvasCell) := by
    rw [MemoryCanvas.new] at hc
    obtain ⟨i, _, hceq⟩ := List.mem_map.mp hc
    exact ⟨i, hceq.symm⟩
  obtain ⟨i, hceq⟩ := hcell
  subst hceq
  simp only [Function.comp]
  apply cellStatus_erase_eq
  · rw [(cellFold_bounds _ _).1, (cellFold_bounds _ _).1]
  · rw [(cellFold_bounds _ _).2, (cellFold_bounds _ _).2]
  · rw [cellFold_take_eq_live us _ _ t ht, cellFold_live_eq]

/-- C3 counterexample: with events `A(0,16)`, `F(0,16)`, `A(16,16)`, block size 16 and
interval 1, the query at `t = 2` replays the first two events and keeps the freed
cell's provenance `Free(Some(0,16))`, while a fresh canvas painted with the live
allocations at `t = 2` has `Free(None)` there: the cell vectors differ. -/
theorem query_cold_replay_counterexample :
    (MemoryCache.mk? 16
          [MemoryUpdateType.allocation 0 16, MemoryUpdateType.free 0 16,
            MemoryUpdateType.allocation 16 16] 1).map
          (fun mc => (query_cache mc 2).toOption) =
        some (some
          [MemoryStatus.free (some (0, 16)), MemoryStatus.free none]) ∧
      [MemoryStatus.free (some (0, 16)), MemoryStatus.free none] ≠
        (freshCanvasAt
          [MemoryUpdateType.allocation 0 16, MemoryUpdateType.free 0 16,
            MemoryUpdateType.allocation 16 16] 16 2).render := by
  decide

/-- C3 (amended): for every cache interval the query result at `t ∈ [0, N-1]` is the
same — the fold of the first `t` events — and it agrees with painting a fresh canvas
with exactly the allocations live at `t` once the `Free`-cell provenance references
(which a from-scratch painting cannot reconstruct) are erased. -/
theorem query_cache_cold_replay_modulo_refs (us : List MemoryUpdateType)
    (I1 I2 B t : ℕ) (hI1 : 1 ≤ I1) (hI2 : 1 ≤ I2) (ht : t < us.length)
    (mc1 mc2 : MemoryCache) (hmc1 : MemoryCache.mk? B us I1 = some mc1)
    (hmc2 : MemoryCache.mk? B us I2 = some mc2) :
    query_cache mc1 t = query_cache mc2 t ∧
      ∃ r, query_cache mc1 t = Except.ok r ∧
        r.map eraseFreeRef = (freshCanvasAt us B t).render.map eraseFreeRef := by
  have hne : us ≠ [] := by
    intro h
    subst h
    simp at ht
  have h1 := query_cache_normal_form us I1 B t hI1 hne mc1 hmc1
  have h2 := query_cache_normal_form us I2 B t hI2 hne mc2 hmc2
  have hmin : min t us.length = t := min_eq_left (le_of_lt ht)
  rw [hmin] at h1 h2
  refine ⟨h1.trans h2.symm, _, h1, ?_⟩
  rw [freshCanvasAt]
  exact render_erase_eq us _ _ B t (le_of_lt ht)

/-- Witness for the amended C3 theorem: two concrete caches with different intervals
answer the same query identically. -/
theorem query_cache_cold_replay_modulo_refs_witness :
    (MemoryCache.mk? 16 [MemoryUpdateType.allocation 0 16] 1).map
        (fun mc => query_cache mc 0) =
      (MemoryCache.mk? 16 [MemoryUpdateType.allocation 0 16] 3).map
        (fun mc => query_cache mc 0) := by
  cases hmc1 : MemoryCache.mk? 16 [MemoryUpdateType.allocation 0 16] 1 with
  | none => exact absurd hmc1 (by decide)
  | some mc1 =>
    cases hmc2 : MemoryCache.mk? 16 [MemoryUpdateType.allocation 0 16] 3 with
    | none => exact absurd hmc2 (by decide)
    | some mc2 =>
      rw [Option.map_some', Option.map_some']
      exact congrArg some
        (query_cache_cold_replay_modulo_refs [MemoryUpdateType.allocation 0 16] 1 3 16 0
          (by decide) (by decide) (by decide) mc1 mc2 hmc1 hmc2).1

/-- Witness for the amended C6 theorem on a concrete two-event, interval-1 cache. -/
theorem generate_cache_snapshots_spec_witness :
    (generate_cache [MemoryUpdateType.allocation 0 16, MemoryUpdateType.free 0 16]
        1 16).map List.length = some 2 := by
  cases hg : generate_cache [MemoryUpdateType.allocation 0 16, MemoryUpdateType.free 0 16]
      1 16 with
  | none => exact absurd hg (by decide)
  | some snaps =>
    rw [Option.map_some']
    rw [(generate_cache_snapshots_spec
      [MemoryUpdateType.allocation 0 16, MemoryUpdateType.free 0 16] 1 16
      (by decide) (by decide) snaps hg).1]
    rfl

/-! ## Theorems: operation log -/

/-- A traversal whose function succeeds pointwise is the plain map. -/
theorem mapM_eq_map_of_forall_some (f : MemoryUpdateType → Option MemoryUpdateType)
    (g : MemoryUpdateType → MemoryUpdateType) :
    ∀ L : List MemoryUpdateType, (∀ u ∈ L, f u = some (g u)) →
      L.mapM f = some (L.map g) := by
  intro L
  induction L with
  | nil => intro _; rfl
  | cons u L ih =>
    intro hall
    rw [List.mapM_cons, hall u (List.mem_cons_self _ _),
      ih (fun v hv => hall v (List.mem_cons_of_mem _ hv))]
    rfl

/-- C9 counterexample: an event whose stored address is smaller than `left_pad` makes
the padding compensation underflow — the log panics (`none`) instead of clamping the
address at zero. -/
theorem operation_log_underflow_counterexample :
    get_operation_log [MemoryUpdateType.allocation 0 5] 1 0 = none ∧
      get_operation_log [MemoryUpdateType.allocation 0 5] 1 0 ≠
        some [MemoryUpdateType.allocation 0 5] := by
  decide

/-- C9 (amended): `get_operation_log` returns at most 128 strings — the most recent
128 events — with each displayed event's address shifted by `-left_pad` and size by
`-right_pad`; the subtraction does not clamp, so the result is only defined when every
stored address and size is at least its pad (otherwise a debug build panics and a
release build wraps). -/
theorem get_operation_log_spec (events : List MemoryUpdateType) (lp rp : ℕ)
    (hpad : ∀ u ∈ events, lp ≤ u.get_absolute_address ∧ rp ≤ u.get_absolute_size) :
    get_operation_log events lp rp =
        some ((events.reverse.take 128).map (adjustPadding lp rp)) ∧
      ∀ l, get_operation_log events lp rp = some l → l.length ≤ 128 := by
  have hmain : get_operation_log events lp rp =
      some ((events.reverse.take 128).map (adjustPadding lp rp)) := by
    rw [get_operation_log, get_operation_history]
    apply mapM_eq_map_of_forall_some
    intro u hu
    have hmem : u ∈ events := by
      have h1 : u ∈ events.reverse := List.mem_of_mem_take hu
      exact List.mem_reverse.mp h1
    obtain ⟨h1, h2⟩ := hpad u hmem
    cases u with
    | allocation a s =>
      rw [MemoryUpdateType.get_absolute_address] at h1
      rw [MemoryUpdateType.get_absolute_size] at h2
      rw [trimPadding, adjustPadding, if_pos ⟨h2, h1⟩]
    | free a s =>
      rw [MemoryUpdateType.get_absolute_address] at h1
      rw [MemoryUpdateType.get_absolute_size] at h2
      rw [trimPadding, adjustPadding, if_pos ⟨h2, h1⟩]
  refine ⟨hmain, fun l hl => ?_⟩
  rw [hmain] at hl
  cases hl
  rw [List.length_map, List.length_take]
  omega

/-- Witness for the amended C9 theorem on a concrete two-event history. -/
theorem get_operation_log_spec_witness :
    get_operation_log
        [MemoryUpdateType.allocation 7 5, MemoryUpdateType.allocation 9 6] 1 2 =
      some (([MemoryUpdateType.allocation 7 5,
          MemoryUpdateType.allocation 9 6].reverse.take 128).map (adjustPadding 1 2)) :=
  (get_operation_log_spec
    [MemoryUpdateType.allocation 7 5, MemoryUpdateType.allocation 9 6] 1 2
    (by decide)).1

end Damselfly
